import Mathlib

/-!
# adminium/logger: the line extractor and the event logger

Part I embeds `extract/extract.go`: the extractor, its three parsers and the
two row types.  The three library calls the parser makes (`regexp`,
`time.Parse`, `strings.TrimSpace`) are embedded as executable definitions
that follow the documented behaviour of the Go standard library.

Go strings are taken to hold valid UTF-8, so a string is a list of
characters (`String`, and `List Char` inside the matcher).

Part II is the event logger that `log_test.go` exercises.  Its source is
not among the files of the repository, so it is modelled from the
specification.
-/

namespace extract

/-! ## regexp: a backtracking matcher with submatches

Go's `regexp` returns, among the matches that start leftmost, the one a
backtracking search finds first.  `run` lists the outcomes of such a search
in the order the search finds them, so its head is the match Go reports. -/

/-- The state of a match attempt: the text already read, the text still to
read, and the text last captured by each numbered group. -/
structure St where
  left : List Char
  right : List Char
  caps : Nat → Option (List Char)

/-- The syntax of the regular expressions used: `^`, `$`, a character class
(a literal is the class of one character), concatenation, `x*` and `x+`
with their greediness, and a numbered capturing group. -/
inductive Re where
  | bol : Re
  | eol : Re
  | cls : (Char → Bool) → Re
  | cat : Re → Re → Re
  | star : Bool → Re → Re
  | plus : Bool → Re → Re
  | cap : Nat → Re → Re

/-- Record `txt` as the text of group `n`. -/
def setCap (caps : Nat → Option (List Char)) (n : Nat) (txt : List Char) :
    Nat → Option (List Char) :=
  fun m => if m = n then some txt else caps m

/-- Zero or more iterations of `body`.  A greedy repetition tries another
iteration before it tries to stop, a non-greedy one stops first.  Only
iterations that read at least one character are followed (every repeated
piece of the pattern below reads one), so `fuel`, the number of characters
left, bounds the number of iterations and the search always ends. -/
def stars (body : St → List St) (greedy : Bool) : Nat → St → List St
  | 0, s => [s]
  | fuel + 1, s =>
    let more := ((body s).filter (fun t => decide (t.right.length < s.right.length))).flatMap
      (stars body greedy fuel)
    if greedy then more ++ [s] else s :: more

/-- All outcomes of matching `r` from state `s`, in backtracking order. -/
def run : Re → St → List St
  | .bol, s => if s.left.isEmpty then [s] else []
  | .eol, s => if s.right.isEmpty then [s] else []
  | .cls p, s =>
    match s.right with
    | [] => []
    | c :: cs => if p c then [{ s with left := s.left ++ [c], right := cs }] else []
  | .cat a b, s => (run a s).flatMap (run b)
  | .star g r, s => stars (run r) g s.right.length s
  | .plus g r, s => (run r s).flatMap (fun t => stars (run r) g t.right.length t)
  | .cap n r, s =>
    (run r s).map (fun t => { t with caps := setCap t.caps n (t.left.drop s.left.length) })

/-- No group has captured anything. -/
def noCaps : Nat → Option (List Char) := fun _ => none

/-- The leftmost match that starts at or after the position `left.length`:
try every start position from there on, the text before the start position
being `left`.  The result is the text before the match and the outcome. -/
def search (re : Re) : List Char → List Char → Option (List Char × St)
  | left, [] => ((run re ⟨left, [], noCaps⟩).head?).map (fun t => (left, t))
  | left, c :: cs =>
    match (run re ⟨left, c :: cs, noCaps⟩).head? with
    | some t => some (left, t)
    | none => search re (left ++ [c]) cs

/-- Go's `NumSubexp`: the number of capturing groups. -/
def Re.numSubexp : Re → Nat
  | .bol => 0
  | .eol => 0
  | .cls _ => 0
  | .cat a b => max a.numSubexp b.numSubexp
  | .star _ r => r.numSubexp
  | .plus _ r => r.numSubexp
  | .cap n r => max n r.numSubexp

/-- The submatches of a match that starts after `start` and has the outcome
`t`: the text of the whole match, then the text of each group, `""` for a
group that took no part in the match. -/
def submatches (re : Re) (start : List Char) (t : St) : List (List Char) :=
  t.left.drop start.length ::
    (List.range re.numSubexp).map (fun i => (t.caps (i + 1)).getD [])

/-- The loop of Go's `allMatches`: `n` matches may still be delivered, the
search goes on at the position `left.length`, and `prevMatchEnd` is the end
of the previous match.  A non-empty match moves the position to its end; an
empty match moves it one character on and is dropped when it lies right
after the previous match.  The position grows in every round, which bounds
the rounds by `fuel`. -/
def allMatches (re : Re) :
    Nat → Nat → List Char → List Char → Option Nat → List (List (List Char))
  | 0, _, _, _, _ => []
  | _ + 1, 0, _, _, _ => []
  | fuel + 1, n + 1, left, right, prevMatchEnd =>
    match search re left right with
    | none => []
    | some (start, t) =>
      if t.left.length == left.length then
        let accept := !(prevMatchEnd == some start.length)
        let out := if accept then [submatches re start t] else []
        match right with
        | [] => out
        | c :: cs =>
          out ++ allMatches re fuel (if accept then n else n + 1) (left ++ [c]) cs
            (some t.left.length)
      else submatches re start t :: allMatches re fuel n t.left t.right (some t.left.length)

/-- Go's `(*Regexp).FindAllStringSubmatch(s, n)` for `n ≥ 0`: the submatches
of the successive matches of `re` in `s`, at most `n` of them. -/
def FindAllStringSubmatch (re : Re) (s : List Char) (n : Nat) : List (List (List Char)) :=
  allMatches re (s.length + 2) n [] s none

/-- The class `\s` of Go's regexp: `[\t\n\f\r ]`. -/
def isWs (c : Char) : Bool :=
  c == '\t' || c == '\n' || c == '\x0c' || c == '\r' || c == ' '

/-- The class `\S`. -/
def isNonWs (c : Char) : Bool := !isWs c

/-- The class `.` without the `s` flag: every character but the newline. -/
def isDot (c : Char) : Bool := !(c == '\n')

/-- The literal character `a`. -/
def lit (a : Char) : Re := .cls (fun c => c == a)

/-- The last group of the pattern, `({.*})`, non-greedy under the flag
`U`. -/
def fieldsGroup : Re :=
  .cap 6 (.cat (lit '{') (.cat (.star false (.cls isDot)) (lit '}')))

/-- The pattern
`(?U)^(\S+)\s+(\S+)\s+(\S+)\s+(\S+)\s+(.*)({.*})*$`.
Under the flag `U` every repetition is non-greedy. -/
def zapEventRegex : Re :=
  .cat .bol <|
  .cat (.cap 1 (.plus false (.cls isNonWs))) <| .cat (.plus false (.cls isWs)) <|
  .cat (.cap 2 (.plus false (.cls isNonWs))) <| .cat (.plus false (.cls isWs)) <|
  .cat (.cap 3 (.plus false (.cls isNonWs))) <| .cat (.plus false (.cls isWs)) <|
  .cat (.cap 4 (.plus false (.cls isNonWs))) <| .cat (.plus false (.cls isWs)) <|
  .cat (.cap 5 (.star false (.cls isDot))) <|
  .cat (.star false fieldsGroup) <|
  .eol

/-- A token: a non-empty run of characters of the class `\S`. -/
def IsTok (t : List Char) : Prop := t ≠ [] ∧ ∀ c ∈ t, isNonWs c = true

/-- A non-empty run of characters of the class `\s`. -/
def IsWsRun (w : List Char) : Prop := w ≠ [] ∧ ∀ c ∈ w, isWs c = true

/-- The whitespace-delimited tokens of a line, whitespace being the class
`\s`. -/
def tokens (l : List Char) : List (List Char) :=
  (l.splitOnP isWs).filter (fun t => !t.isEmpty)

/-- The start state of a match attempt at the beginning of `line`. -/
def St.init (line : List Char) : St := ⟨[], line, noCaps⟩

/-- What zero or more iterations of the last group do to a state: they read
`consumed`, none of it a newline, leave the other groups alone, and either
read nothing or end with a captured block in braces. -/
def FieldsRel (s t : St) : Prop :=
  ∃ consumed, s.right = consumed ++ t.right ∧ t.left = s.left ++ consumed ∧
    (∀ c ∈ consumed, isDot c = true) ∧ (∀ n, n ≠ 6 → t.caps n = s.caps n) ∧
    ((consumed = [] ∧ t.caps 6 = s.caps 6) ∨
      ∃ pre mid, consumed = pre ++ '{' :: (mid ++ ['}']) ∧
        t.caps 6 = some ('{' :: (mid ++ ['}'])))


/-! ## time.Parse, for the one layout the parser uses -/

/-- What `time.Parse` read: the civil date and time, the nanoseconds, and
the zone offset in seconds east of UTC. -/
structure Time where
  year : Nat
  month : Nat
  day : Nat
  hour : Nat
  min : Nat
  sec : Nat
  nsec : Nat
  offset : Int
  deriving DecidableEq, Repr

/-- The value of a decimal digit, `none` for any other character. -/
def digit? (c : Char) : Option Nat :=
  if '0' ≤ c ∧ c ≤ '9' then some (c.toNat - '0'.toNat) else none

/-- Go's `getnum`: one or two decimal digits; with `fixed` exactly two. -/
def getnum (s : List Char) (fixed : Bool) : Option (Nat × List Char) :=
  match s with
  | [] => none
  | a :: rest =>
    match digit? a with
    | none => none
    | some x =>
      match rest with
      | [] => if fixed then none else some (x, rest)
      | b :: rest2 =>
        match digit? b with
        | none => if fixed then none else some (x, rest)
        | some y => some (x * 10 + y, rest2)

/-- Go's `skip` for a layout text of one character other than a space: the
value has to start with that character. -/
def skip (value : List Char) (sep : Char) : Option (List Char) :=
  match value with
  | [] => none
  | c :: rest => if c = sep then some rest else none

/-- The value of a string of decimal digits, most significant first. -/
def digitsVal (ds : List Char) : Nat :=
  ds.foldl (fun acc c => acc * 10 + (c.toNat - '0'.toNat)) 0

/-- Go's `isLeap`. -/
def isLeap (year : Nat) : Bool :=
  year % 4 == 0 && (year % 100 != 0 || year % 400 == 0)

/-- Go's `daysIn`. -/
def daysIn (month year : Nat) : Nat :=
  if month == 2 then (if isLeap year then 29 else 28)
  else if month == 4 || month == 6 || month == 9 || month == 11 then 30
  else 31

/-- The chunk `2006` (stdLongYear): four digits. -/
def parseYear (value : List Char) : Option (Nat × List Char) :=
  match value with
  | a :: b :: c :: d :: rest =>
    if (digit? a).isSome && (digit? b).isSome && (digit? c).isSome && (digit? d).isSome
    then some (digitsVal [a, b, c, d], rest) else none
  | _ => none

/-- The chunk `.999` (stdFracSecond9): a fraction is read only when a period
or comma and a digit follow; then every digit is consumed and the first nine
count. -/
def parseFrac (value : List Char) : Nat × List Char :=
  match value with
  | sep :: d :: rest =>
    if (sep == '.' || sep == ',') && (digit? d).isSome then
      let ds := (d :: rest).takeWhile (fun c => (digit? c).isSome)
      let ds9 := ds.take 9
      (digitsVal ds9 * 10 ^ (9 - ds9.length), (d :: rest).dropWhile (fun c => (digit? c).isSome))
    else (0, value)
  | _ => (0, value)

/-- The chunk `Z0700` (stdISO8601TZ): `Z`, or a sign, two digits of hours and
two digits of minutes. -/
def parseZone (value : List Char) : Option (Int × List Char) :=
  match value with
  | 'Z' :: rest => some (0, rest)
  | sign :: h1 :: h2 :: m1 :: m2 :: rest =>
    match getnum [h1, h2] true, getnum [m1, m2] true with
    | some (hr, _), some (mm, _) =>
      if hr > 24 || mm > 60 then none
      else if sign == '+' then some (((hr * 60 + mm) * 60 : Nat), rest)
      else if sign == '-' then some (-(((hr * 60 + mm) * 60 : Nat) : Int), rest)
      else none
    | _, _ => none
  | _ => none

/-- Go's `time.Parse("2006-01-02T15:04:05.999Z0700", value)`, `none` for a
non-nil error, after `format.go` of recent Go releases.  The layout is the
chunks `2006`, `-01`, `-02`, `T15`, `:04`, `:05`, `.999`, `Z0700`; the hour
may have one digit, the fraction may be absent, nothing may follow the zone,
and the day has to exist in its month. -/
def timeParse (value : List Char) : Option Time := do
  let (year, v) ← parseYear value
  let v ← skip v '-'
  let (month, v) ← getnum v true
  if month = 0 ∨ 12 < month then none
  let v ← skip v '-'
  let (day, v) ← getnum v true
  let v ← skip v 'T'
  let (hour, v) ← getnum v false
  if 24 ≤ hour then none
  let v ← skip v ':'
  let (min, v) ← getnum v true
  if 60 ≤ min then none
  let v ← skip v ':'
  let (sec, v) ← getnum v true
  if 60 ≤ sec then none
  let (nsec, v) := parseFrac v
  let (offset, v) ← parseZone v
  if !v.isEmpty then none
  if day < 1 ∨ daysIn month year < day then none
  pure { year := year, month := month, day := day, hour := hour, min := min, sec := sec,
         nsec := nsec, offset := offset }

/-! ## strings.TrimSpace -/

/-- Go's `unicode.IsSpace`. -/
def isSpace (c : Char) : Bool :=
  c == '\t' || c == '\n' || c == '\x0b' || c == '\x0c' || c == '\r' || c == ' ' ||
  c.toNat == 0x85 || c.toNat == 0xA0 || c.toNat == 0x1680 ||
  (0x2000 ≤ c.toNat && c.toNat ≤ 0x200A) ||
  c.toNat == 0x2028 || c.toNat == 0x2029 || c.toNat == 0x202F || c.toNat == 0x205F ||
  c.toNat == 0x3000

/-- Go's `strings.TrimSpace`: drop the leading and the trailing white
space. -/
def TrimSpace (s : List Char) : List Char :=
  (s.dropWhile isSpace).rdropWhile isSpace

/-! ## extract.go -/

/-- The struct `ZapEventRow`. -/
structure ZapEventRow where
  Ts : Time
  Level : String
  Module : String
  Location : String
  Message : String
  Fields : String
  deriving DecidableEq, Repr

/-- The struct `Raw`. -/
structure Raw where
  message : String
  deriving DecidableEq, Repr

/-- `func (r Raw) Output() string`. -/
def Raw.Output (r : Raw) : String := r.message

/-- A value of the interface `Row`: one of the two row types of the
package.  The nil interface value is `none : Option Row`. -/
inductive Row where
  | zap : ZapEventRow → Row
  | raw : Raw → Row
  deriving DecidableEq, Repr

/-- The interface `Parser`: `Parse` returns nil (`none`) if the line does not
match the parser's rule. -/
structure Parser where
  Parse : String → Option Row

/-- `func (z ZapEventParser) Parse(line string) Row`. -/
def ZapEventParser.Parse (line : String) : Option Row :=
  match FindAllStringSubmatch zapEventRegex line.toList 6 with
  | [] => none
  | r0 :: _ =>
    if r0.length < 7 then none
    else if r0.getD 1 [] == [] || r0.getD 2 [] == [] then none
    else
      match timeParse (r0.getD 1 []) with
      | none => none
      | some ts =>
        some (.zap {
          Ts := ts
          Level := String.mk (r0.getD 2 [])
          Module := String.mk (r0.getD 3 [])
          Location := String.mk (r0.getD 4 [])
          Message := String.mk (TrimSpace (r0.getD 5 []))
          Fields := String.mk (TrimSpace (r0.getD 6 [])) })

/-- The row `Parse` builds from the outcome `t` of the pattern and the
parsed time. -/
def rowOf (t : St) (ts : Time) : Row :=
  .zap {
    Ts := ts
    Level := String.mk ((t.caps 2).getD [])
    Module := String.mk ((t.caps 3).getD [])
    Location := String.mk ((t.caps 4).getD [])
    Message := String.mk (TrimSpace ((t.caps 5).getD []))
    Fields := String.mk (TrimSpace ((t.caps 6).getD [])) }

/-- `func (j JsonParser) Parse(line string) Row`. -/
def JsonParser.Parse (_line : String) : Option Row := none

/-- `func (l RawParser) Parse(line string) Row`. -/
def RawParser.Parse (line : String) : Option Row := some (.raw { message := line })

/-- The parser value `ZapEventParser{}`. -/
def ZapEventParser : Parser := ⟨ZapEventParser.Parse⟩

/-- The parser value `JsonParser{}`. -/
def JsonParser : Parser := ⟨JsonParser.Parse⟩

/-- The parser value `RawParser{}`. -/
def RawParser : Parser := ⟨RawParser.Parse⟩

/-- The struct `Extractor`. -/
structure Extractor where
  parsers : List Parser

/-- `func (ex *Extractor) RegisterParser(parsers ...Parser)`. -/
def Extractor.RegisterParser (ex : Extractor) (parsers : List Parser) : Extractor :=
  { parsers := ex.parsers ++ parsers }

/-- The loop of `Extractor.Extract` over the parsers still to try; the
result is the pair `(Row, error)`. -/
def extractLoop (line : String) : List Parser → Option Row × Option String
  | [] => (none, some "no parser match")
  | v :: rest =>
    match v.Parse line with
    | some row => (some row, none)
    | none => extractLoop line rest

/-- `func (ex *Extractor) Extract(line string) (Row, error)`. -/
def Extractor.Extract (ex : Extractor) (line : String) : Option Row × Option String :=
  extractLoop line ex.parsers

/-- The package variable `defaultExtractor` as `init` leaves it. -/
def defaultExtractor : Extractor :=
  (Extractor.mk []).RegisterParser [ZapEventParser, RawParser]

/-- `func Extract(line string) (Row, error)`. -/
def Extract (line : String) : Option Row × Option String :=
  defaultExtractor.Extract line

/-- The text of the JSON line that `TestNewCoreFormat` expects of the
backend, without its final newline. -/
def jsonText : String :=
  "\x7b\"level\":\"info\",\"ts\":\"2010-05-23T15:14:00.000Z\",\"logger\":\"main\",\"msg\":\"scooby\"\x7d"

/-- The JSON line of `TestNewCoreFormat`, as it is passed to `Extract`. -/
def jsonLine : String := jsonText ++ "\n"

end extract

/-! # Part II: the event logger of `log_test.go`

`log_test.go` calls `Logger`, `Start`, `SetTag`, `SetTags`, `LogKV`,
`Finish`, `FinishWithErr`, `SerializeContext` and `StartFromParentState`;
the file that defines them is not among the sources.  The definitions below
are modelled from the specification (sections 3, 4.1 and 6): a span
registry, the sink stream, and one state-passing function for each call. -/

namespace log

/-- Modelled from the spec: the value of a tag or of a `LogKV` argument, an
"arbitrary scalar/structured value" (the event logger source is missing);
strings, booleans, integers and sequences of strings stand for them. -/
inductive Value where
  | str : String → Value
  | bool : Bool → Value
  | int : Int → Value
  | strs : List String → Value
  deriving DecidableEq, Repr

/-- Modelled from the spec: the "textual representation" of a value
(section 6; the rendering code is missing): a string is itself and a
sequence is its items, separated by blanks, in square brackets. -/
def Value.render : Value → String
  | .str s => s
  | .bool b => if b then "true" else "false"
  | .int i => toString i
  | .strs xs => "[" ++ " ".intercalate xs ++ "]"

/-- Modelled from the spec: one key/value field of a log record, the value
being a string (section 6; the record types are missing). -/
structure Field where
  key : String
  value : String
  deriving DecidableEq, Repr

/-- Modelled from the spec: a log record, "a timestamp plus an ordered
sequence of key/value fields" (section 3; the record types are missing). -/
structure LogRecord where
  timestamp : Nat
  fields : List Field
  deriving DecidableEq, Repr

/-- Modelled from the spec: the identity of a span, trace id and span id
(section 3, continuation token; the span type is missing). -/
structure Identity where
  traceID : Nat
  spanID : Nat
  deriving DecidableEq, Repr

/-- Modelled from the spec: the tag set, a "mapping from string key to
arbitrary scalar/structured value; keys unique" (section 3; the span type is
missing). -/
abbrev Tags := String → Option Value

/-- Modelled from the spec: one write to a tag set, "last write per key
wins" and a write never clears another key (the span type is missing). -/
def Tags.set (tags : Tags) (key : String) (value : Value) : Tags :=
  fun k => if k = key then some value else tags k

/-- Modelled from the spec: the span of section 3 (the span type is
missing): identity, parent reference, operation name, start time, tags and
logs.  The duration is computed at finalization only. -/
structure Span where
  id : Identity
  parentRef : Option Nat
  operation : String
  start : Nat
  tags : Tags
  logs : List LogRecord

/-- Modelled from the spec: the serialized span record of section 6 with the
ancestry metadata of section 8 (the serializer is missing). -/
structure Record where
  operation : String
  start : Nat
  duration : Nat
  tags : Tags
  logs : List LogRecord
  traceID : Nat
  spanID : Nat
  parentRef : Option Nat

/-- Modelled from the spec: the state of the tracing world (the registry is
missing): the clock, the next fresh identifier, the spans started and not
yet finished, and the records the sinks have received, in order.  Section 6
asks for globally unique identifiers, so all identifiers come from this one
supply, whichever process starts the span. -/
structure State where
  clock : Nat
  nextID : Nat
  spans : List Span
  sink : List Record

/-- Modelled from the spec: an event logger, created with the name of its
system (`Logger("test")`; the constructor is missing). -/
structure EventLogger where
  system : String

/-- Modelled from the spec: the context carrier (section 3; the carrier is
missing): the identity of the current span, or no span for a background
context. -/
abbrev Carrier := Option Identity

/-- Modelled from the spec: a mutation of the span a carrier resolves to; a
carrier that resolves to no span changes nothing (the engine is missing). -/
def updateSpan (st : State) (c : Carrier) (f : Span → Span) : State :=
  match c with
  | none => st
  | some i =>
    { st with spans := st.spans.map (fun s => if s.id.spanID == i.spanID then f s else s) }

/-- Modelled from the spec: `SetTag(carrier, key, value)`, "merge into the
current span's tag set; last-write-wins per key" (section 4.1; log.go is
missing).  The tag `system` "never changes after creation" (section 3) and
the tags always include it (section 6), so a write to the key `system` is
ignored. -/
def EventLogger.SetTag (_el : EventLogger) (st : State) (c : Carrier) (key : String)
    (value : Value) : State :=
  if key = "system" then st
  else updateSpan st c (fun s => { s with tags := s.tags.set key value })

/-- Modelled from the spec: `SetTags(carrier, map)`, every entry of the map
merged into the tag set (section 4.1; log.go is missing); an entry with the
key `system` is ignored, as in `SetTag`. -/
def EventLogger.SetTags (_el : EventLogger) (st : State) (c : Carrier)
    (tags : List (String × Value)) : State :=
  updateSpan st c (fun s =>
    { s with
      tags := List.foldl
        (fun acc kv => if kv.1 = "system" then acc else Tags.set acc kv.1 kv.2) s.tags tags })

/-- Modelled from the spec: `LogKV(carrier, key1, val1, ...)`, which
"appends one log record containing all given pairs in call order,
timestamped at call time", every value rendered as text (sections 4.1 and
6; log.go is missing). -/
def EventLogger.LogKV (_el : EventLogger) (st : State) (c : Carrier)
    (keyValues : List (String × Value)) : State :=
  { updateSpan st c (fun s =>
      { s with logs := s.logs ++
          [{ timestamp := st.clock
             fields := keyValues.map (fun kv => { key := kv.1, value := kv.2.render }) }] })
    with clock := st.clock + 1 }

/-- One call that mutates a span between its start and its end. -/
inductive Call where
  | SetTag : String → Value → Call
  | SetTags : List (String × Value) → Call
  | LogKV : List (String × Value) → Call

/-- Make one call on the span of the carrier. -/
def Call.apply (el : EventLogger) (c : Carrier) (st : State) : Call → State
  | .SetTag k v => el.SetTag st c k v
  | .SetTags m => el.SetTags st c m
  | .LogKV kvs => el.LogKV st c kvs

end log

/-! # Theorems of Part I -/

namespace extract

/-! ## The matcher: what each piece of the pattern can yield -/

theorem mem_run_cls (p : Char → Bool) (s t : St) :
    t ∈ run (.cls p) s ↔
      ∃ c cs, s.right = c :: cs ∧ p c = true ∧ t = ⟨s.left ++ [c], cs, s.caps⟩ := by
  rcases s with ⟨l, r, k⟩
  cases r with
  | nil => simp [run]
  | cons c cs =>
    by_cases h : p c = true
    · simp only [run, h, if_true, List.mem_singleton]
      constructor
      · rintro rfl
        exact ⟨c, cs, rfl, h, rfl⟩
      · rintro ⟨c', cs', e, -, rfl⟩
        cases e
        rfl
    · have h' : p c = false := by simpa using h
      simp only [run, h', Bool.false_eq_true, if_false, List.not_mem_nil, false_iff]
      rintro ⟨c', cs', e, hp, -⟩
      cases e
      exact h hp

theorem run_cat (a b : Re) (s : St) : run (.cat a b) s = (run a s).flatMap (run b) := rfl

theorem run_star (g : Bool) (r : Re) (s : St) :
    run (.star g r) s = stars (run r) g s.right.length s := rfl

theorem run_plus (g : Bool) (r : Re) (s : St) :
    run (.plus g r) s = (run r s).flatMap (fun t => stars (run r) g t.right.length t) := rfl

theorem run_cap (n : Nat) (r : Re) (s : St) :
    run (.cap n r) s =
      (run r s).map (fun t => { t with caps := setCap t.caps n (t.left.drop s.left.length) }) :=
  rfl

theorem mem_stars_cls (p : Char → Bool) (g : Bool) :
    ∀ (fuel : Nat) (s t : St), s.right.length ≤ fuel →
      (t ∈ stars (run (.cls p)) g fuel s ↔
        ∃ xs ys, s.right = xs ++ ys ∧ (∀ c ∈ xs, p c = true) ∧
          t = ⟨s.left ++ xs, ys, s.caps⟩) := by
  intro fuel
  induction fuel with
  | zero =>
    intro s t h
    have hr : s.right = [] := List.length_eq_zero.mp (Nat.le_zero.mp h)
    simp only [stars, List.mem_singleton]
    constructor
    · intro e
      subst e
      rcases t with ⟨l, r, k⟩
      simp only at hr
      subst hr
      exact ⟨[], [], by simp, by simp, by simp⟩
    · rintro ⟨xs, ys, e, -, rfl⟩
      rw [hr] at e
      have := List.append_eq_nil.mp e.symm
      rcases s with ⟨l, r, k⟩
      simp_all
  | succ n ih =>
    intro s t h
    have key : t ∈ ((run (.cls p) s).filter
          (fun u => decide (u.right.length < s.right.length))).flatMap
          (stars (run (.cls p)) g n) ↔
        ∃ c xs ys, s.right = (c :: xs) ++ ys ∧ (∀ d ∈ c :: xs, p d = true) ∧
          t = ⟨s.left ++ (c :: xs), ys, s.caps⟩ := by
      simp only [List.mem_flatMap, List.mem_filter, mem_run_cls, decide_eq_true_eq]
      constructor
      · rintro ⟨u, ⟨⟨c, cs, hs, hp, rfl⟩, -⟩, ht⟩
        have hl : cs.length ≤ n := by
          have := congrArg List.length hs
          simp at this; omega
        rw [ih _ _ hl] at ht
        rcases ht with ⟨xs, ys, e, hall, rfl⟩
        simp only at e
        refine ⟨c, xs, ys, by simp [hs, e], ?_, by simp⟩
        intro d hd
        rcases List.mem_cons.mp hd with rfl | hd
        · exact hp
        · exact hall d hd
      · rintro ⟨c, xs, ys, hs, hall, rfl⟩
        refine ⟨⟨s.left ++ [c], xs ++ ys, s.caps⟩, ⟨⟨c, xs ++ ys, by simpa using hs,
          hall c (List.mem_cons_self _ _), rfl⟩, by simp [hs]⟩, ?_⟩
        have hl : (xs ++ ys).length ≤ n := by
          have := congrArg List.length hs
          simp at this; simp; omega
        rw [ih _ _ hl]
        exact ⟨xs, ys, rfl, fun d hd => hall d (List.mem_cons_of_mem _ hd), by simp⟩
    have split : t ∈ stars (run (.cls p)) g (n + 1) s ↔
        t = s ∨ t ∈ ((run (.cls p) s).filter
          (fun u => decide (u.right.length < s.right.length))).flatMap
          (stars (run (.cls p)) g n) := by
      cases g <;> simp [stars, or_comm]
    rw [split, key]
    constructor
    · rintro (rfl | ⟨c, xs, ys, hs, hall, rfl⟩)
      · exact ⟨[], t.right, by simp, by simp, by simp⟩
      · exact ⟨c :: xs, ys, hs, hall, rfl⟩
    · rintro ⟨xs, ys, hs, hall, rfl⟩
      cases xs with
      | nil =>
        left
        rcases s with ⟨l, r, k⟩
        simp at hs
        simp [hs]
      | cons c xs => exact Or.inr ⟨c, xs, ys, hs, hall, rfl⟩

theorem mem_run_star_cls (p : Char → Bool) (g : Bool) (s t : St) :
    t ∈ run (.star g (.cls p)) s ↔
      ∃ xs ys, s.right = xs ++ ys ∧ (∀ c ∈ xs, p c = true) ∧
        t = ⟨s.left ++ xs, ys, s.caps⟩ := by
  rw [run_star]
  exact mem_stars_cls p g _ s t (Nat.le_refl _)

theorem mem_run_plus_cls (p : Char → Bool) (g : Bool) (s t : St) :
    t ∈ run (.plus g (.cls p)) s ↔
      ∃ xs ys, xs ≠ [] ∧ s.right = xs ++ ys ∧ (∀ c ∈ xs, p c = true) ∧
        t = ⟨s.left ++ xs, ys, s.caps⟩ := by
  rw [run_plus]
  simp only [List.mem_flatMap, mem_run_cls]
  constructor
  · rintro ⟨u, ⟨c, cs, hs, hp, rfl⟩, ht⟩
    rw [mem_stars_cls p g _ _ _ (Nat.le_refl _)] at ht
    rcases ht with ⟨xs, ys, e, hall, rfl⟩
    simp only at e
    refine ⟨c :: xs, ys, by simp, by simp [hs, e], ?_, by simp⟩
    intro d hd
    rcases List.mem_cons.mp hd with rfl | hd
    · exact hp
    · exact hall d hd
  · rintro ⟨xs, ys, hne, hs, hall, rfl⟩
    cases xs with
    | nil => exact absurd rfl hne
    | cons c xs =>
      refine ⟨⟨s.left ++ [c], xs ++ ys, s.caps⟩, ⟨c, xs ++ ys, by simpa using hs,
        hall c (List.mem_cons_self _ _), rfl⟩, ?_⟩
      rw [mem_stars_cls p g _ _ _ (Nat.le_refl _)]
      exact ⟨xs, ys, rfl, fun d hd => hall d (List.mem_cons_of_mem _ hd), by simp⟩

theorem mem_run_cap_plus_cls (n : Nat) (p : Char → Bool) (g : Bool) (s t : St) :
    t ∈ run (.cap n (.plus g (.cls p))) s ↔
      ∃ xs ys, xs ≠ [] ∧ s.right = xs ++ ys ∧ (∀ c ∈ xs, p c = true) ∧
        t = ⟨s.left ++ xs, ys, setCap s.caps n xs⟩ := by
  rw [run_cap]
  simp only [List.mem_map, mem_run_plus_cls]
  constructor
  · rintro ⟨u, ⟨xs, ys, hne, hs, hall, rfl⟩, rfl⟩
    exact ⟨xs, ys, hne, hs, hall, by simp⟩
  · rintro ⟨xs, ys, hne, hs, hall, rfl⟩
    exact ⟨_, ⟨xs, ys, hne, hs, hall, rfl⟩, by simp⟩

theorem mem_run_cap_star_cls (n : Nat) (p : Char → Bool) (g : Bool) (s t : St) :
    t ∈ run (.cap n (.star g (.cls p))) s ↔
      ∃ xs ys, s.right = xs ++ ys ∧ (∀ c ∈ xs, p c = true) ∧
        t = ⟨s.left ++ xs, ys, setCap s.caps n xs⟩ := by
  rw [run_cap]
  simp only [List.mem_map, mem_run_star_cls]
  constructor
  · rintro ⟨u, ⟨xs, ys, hs, hall, rfl⟩, rfl⟩
    exact ⟨xs, ys, hs, hall, by simp⟩
  · rintro ⟨xs, ys, hs, hall, rfl⟩
    exact ⟨_, ⟨xs, ys, hs, hall, rfl⟩, by simp⟩

theorem mem_run_bol (s t : St) : t ∈ run .bol s ↔ s.left = [] ∧ t = s := by
  rcases s with ⟨l, r, k⟩
  cases l <;> simp [run]

theorem mem_run_eol (s t : St) : t ∈ run .eol s ↔ s.right = [] ∧ t = s := by
  rcases s with ⟨l, r, k⟩
  cases r <;> simp [run]

theorem self_mem_stars (body : St → List St) (g : Bool) (fuel : Nat) (s : St) :
    s ∈ stars body g fuel s := by
  cases fuel <;> cases g <;> simp [stars]

theorem fieldsGroup_sound (s t : St) (h : t ∈ run fieldsGroup s) :
    ∃ mid ys, s.right = '{' :: (mid ++ '}' :: ys) ∧ (∀ c ∈ mid, isDot c = true) ∧
      t = ⟨s.left ++ '{' :: (mid ++ ['}']), ys, setCap s.caps 6 ('{' :: (mid ++ ['}']))⟩ := by
  rw [fieldsGroup, run_cap, run_cat] at h
  simp only [List.mem_map, List.mem_flatMap, run_cat, lit, mem_run_cls, mem_run_star_cls] at h
  rcases h with ⟨u, ⟨v, ⟨c, cs, hs, hc, rfl⟩, w, ⟨xs, ys, e1, hall, rfl⟩, d, ds, e2, hd, rfl⟩, rfl⟩
  simp only at e1 e2
  have hc' : c = '{' := by simpa using hc
  have hd' : d = '}' := by simpa using hd
  subst hc' hd'
  refine ⟨xs, ds, by rw [hs, e1, e2], hall, ?_⟩
  simp

theorem stars_fieldsGroup_sound (g : Bool) :
    ∀ (fuel : Nat) (s t : St), t ∈ stars (run fieldsGroup) g fuel s → FieldsRel s t := by
  intro fuel
  induction fuel with
  | zero =>
    intro s t h
    simp only [stars, List.mem_singleton] at h
    subst h
    exact ⟨[], by simp, by simp, by simp, fun _ _ => rfl, Or.inl ⟨rfl, rfl⟩⟩
  | succ n ih =>
    intro s t h
    have split : t = s ∨ t ∈ ((run fieldsGroup s).filter
          (fun u => decide (u.right.length < s.right.length))).flatMap
          (stars (run fieldsGroup) g n) := by
      cases g <;> simpa [stars, or_comm] using h
    rcases split with rfl | h
    · exact ⟨[], by simp, by simp, by simp, fun _ _ => rfl, Or.inl ⟨rfl, rfl⟩⟩
    · simp only [List.mem_flatMap, List.mem_filter] at h
      rcases h with ⟨u, ⟨hu, -⟩, ht⟩
      rcases fieldsGroup_sound s u hu with ⟨mid, ys, hs, hmid, rfl⟩
      rcases ih _ t ht with ⟨cons', e1, e2, hdot, hcaps, hsix⟩
      simp only at e1 e2 hcaps hsix
      have hblk : ∀ c ∈ '{' :: (mid ++ ['}']), isDot c = true := by
        intro c hc
        simp only [List.mem_cons, List.mem_append, List.mem_singleton, List.not_mem_nil,
          or_false] at hc
        rcases hc with rfl | hc | rfl
        · decide
        · exact hmid c hc
        · decide
      refine ⟨'{' :: (mid ++ ['}']) ++ cons', ?_, ?_, ?_, ?_, ?_⟩
      · rw [hs, e1]; simp
      · rw [e2]; simp
      · intro c hc
        rcases List.mem_append.mp hc with hc | hc
        · exact hblk c hc
        · exact hdot c hc
      · intro m hm
        rw [hcaps m hm]
        simp [setCap, hm]
      · right
        rcases hsix with ⟨rfl, h6⟩ | ⟨pre, mid', rfl, h6⟩
        · exact ⟨[], mid, by simp, by rw [h6]; simp [setCap]⟩
        · exact ⟨'{' :: (mid ++ ['}']) ++ pre, mid', by simp, h6⟩

theorem run_bol_cat_of_left_ne (r : Re) (s : St) (h : s.left ≠ []) :
    run (.cat .bol r) s = [] := by
  rcases s with ⟨l, rt, k⟩
  cases l with
  | nil => exact absurd rfl h
  | cons a l => simp [run]

theorem search_bol_of_left_ne (r : Re) :
    ∀ (right left : List Char), left ≠ [] → search (.cat .bol r) left right = none := by
  intro right
  induction right with
  | nil =>
    intro left h
    simp [search, run_bol_cat_of_left_ne r ⟨left, [], noCaps⟩ h]
  | cons c cs ih =>
    intro left h
    simp [search, run_bol_cat_of_left_ne r ⟨left, c :: cs, noCaps⟩ h, ih (left ++ [c]) (by simp)]

theorem search_bol (r : Re) (line : List Char) :
    search (.cat .bol r) [] line =
      ((run (.cat .bol r) ⟨[], line, noCaps⟩).head?).map (fun t => ([], t)) := by
  cases line with
  | nil => rfl
  | cons c cs =>
    rw [search]
    cases h : (run (.cat .bol r) ⟨[], c :: cs, noCaps⟩).head? with
    | some t => rfl
    | none => simp [search_bol_of_left_ne r cs [c] (by simp)]

/-- Every outcome of the pattern on `line` splits the line into four tokens
held by the groups 1 to 4, white space between and after them, the text of
group 5 and the text read by the iterations of group 6. -/
theorem zap_sound (line : List Char) (t : St)
    (h : t ∈ run zapEventRegex (St.init line)) :
    ∃ t1 w1 t2 w2 t3 w3 t4 w5 g5 c6,
      line = t1 ++ (w1 ++ (t2 ++ (w2 ++ (t3 ++ (w3 ++ (t4 ++ (w5 ++ (g5 ++ c6)))))))) ∧
      IsTok t1 ∧ IsWsRun w1 ∧ IsTok t2 ∧ IsWsRun w2 ∧ IsTok t3 ∧ IsWsRun w3 ∧ IsTok t4 ∧
      IsWsRun w5 ∧ (∀ c ∈ g5, isDot c = true) ∧ (∀ c ∈ c6, isDot c = true) ∧
      t.caps 1 = some t1 ∧ t.caps 2 = some t2 ∧ t.caps 3 = some t3 ∧ t.caps 4 = some t4 ∧
      t.caps 5 = some g5 ∧
      ((c6 = [] ∧ t.caps 6 = none) ∨
        ∃ pre mid, c6 = pre ++ '{' :: (mid ++ ['}']) ∧
          t.caps 6 = some ('{' :: (mid ++ ['}']))) := by
  simp only [zapEventRegex, St.init, run_cat, List.mem_flatMap, mem_run_bol,
    mem_run_cap_plus_cls, mem_run_plus_cls, mem_run_cap_star_cls, mem_run_eol, run_star] at h
  rcases h with ⟨s0, ⟨-, rfl⟩, s1, ⟨t1, r1, n1, e1, a1, rfl⟩, s2, ⟨w1, r2, n2, e2, a2, rfl⟩,
    s3, ⟨t2, r3, n3, e3, a3, rfl⟩, s4, ⟨w2, r4, n4, e4, a4, rfl⟩,
    s5, ⟨t3, r5, n5, e5, a5, rfl⟩, s6, ⟨w3, r6, n6, e6, a6, rfl⟩,
    s7, ⟨t4, r7, n7, e7, a7, rfl⟩, s8, ⟨w5, r8, n8, e8, a8, rfl⟩,
    s9, ⟨g5, r9, e9, a9, rfl⟩, s10, hstar, hend, rfl⟩
  simp only at e1 e2 e3 e4 e5 e6 e7 e8 e9
  rcases stars_fieldsGroup_sound _ _ _ _ hstar with ⟨c6, f1, f2, fdot, fcaps, fsix⟩
  simp only at f1 f2 fcaps fsix
  rw [hend, List.append_nil] at f1
  refine ⟨t1, w1, t2, w2, t3, w3, t4, w5, g5, c6, ?_, ⟨n1, a1⟩, ⟨n2, a2⟩, ⟨n3, a3⟩,
    ⟨n4, a4⟩, ⟨n5, a5⟩, ⟨n6, a6⟩, ⟨n7, a7⟩, ⟨n8, a8⟩, a9, fdot, ?_, ?_, ?_, ?_, ?_, ?_⟩
  · rw [e1, e2, e3, e4, e5, e6, e7, e8, e9, f1]
  · rw [fcaps 1 (by decide)]; simp [setCap]
  · rw [fcaps 2 (by decide)]; simp [setCap]
  · rw [fcaps 3 (by decide)]; simp [setCap]
  · rw [fcaps 4 (by decide)]; simp [setCap]
  · rw [fcaps 5 (by decide)]; simp [setCap]
  · rcases fsix with ⟨rfl, h6⟩ | ⟨pre, mid, rfl, h6⟩
    · left
      refine ⟨rfl, ?_⟩
      rw [h6]; simp [setCap, noCaps]
    · exact Or.inr ⟨pre, mid, rfl, h6⟩

/-- A line of four tokens, white space between and after them and a tail
without a newline has a match. -/
theorem zap_complete (t1 w1 t2 w2 t3 w3 t4 w5 tail : List Char)
    (h1 : IsTok t1) (k1 : IsWsRun w1) (h2 : IsTok t2) (k2 : IsWsRun w2) (h3 : IsTok t3)
    (k3 : IsWsRun w3) (h4 : IsTok t4) (k5 : IsWsRun w5) (htail : ∀ c ∈ tail, isDot c = true) :
    run zapEventRegex
      (St.init (t1 ++ (w1 ++ (t2 ++ (w2 ++ (t3 ++ (w3 ++ (t4 ++ (w5 ++ tail))))))))) ≠ [] := by
  apply List.ne_nil_of_mem (a := (⟨t1 ++ w1 ++ t2 ++ w2 ++ t3 ++ w3 ++ t4 ++ w5 ++ tail, [],
    setCap (setCap (setCap (setCap (setCap noCaps 1 t1) 2 t2) 3 t3) 4 t4) 5 tail⟩ : St))
  simp only [zapEventRegex, St.init, run_cat, List.mem_flatMap, mem_run_bol,
    mem_run_cap_plus_cls, mem_run_plus_cls, mem_run_cap_star_cls, mem_run_eol, run_star]
  refine ⟨_, ⟨trivial, rfl⟩, _, ⟨t1, _, h1.1, rfl, h1.2, rfl⟩, _, ⟨w1, _, k1.1, rfl, k1.2, rfl⟩,
    _, ⟨t2, _, h2.1, rfl, h2.2, rfl⟩, _, ⟨w2, _, k2.1, rfl, k2.2, rfl⟩,
    _, ⟨t3, _, h3.1, rfl, h3.2, rfl⟩, _, ⟨w3, _, k3.1, rfl, k3.2, rfl⟩,
    _, ⟨t4, _, h4.1, rfl, h4.2, rfl⟩, _, ⟨w5, _, k5.1, rfl, k5.2, rfl⟩,
    _, ⟨tail, [], by simp, htail, rfl⟩, _, self_mem_stars _ _ _ _, rfl, ?_⟩
  simp

/-- An outcome of the pattern has read at least one character. -/
theorem zap_left_ne (line : List Char) (t : St)
    (h : t ∈ run zapEventRegex (St.init line)) : t.left ≠ [] := by
  simp only [zapEventRegex, St.init, run_cat, List.mem_flatMap, mem_run_bol,
    mem_run_cap_plus_cls, mem_run_plus_cls, mem_run_cap_star_cls, mem_run_eol, run_star] at h
  rcases h with ⟨s0, ⟨-, rfl⟩, s1, ⟨t1, r1, n1, e1, a1, rfl⟩, s2, ⟨w1, r2, n2, e2, a2, rfl⟩,
    s3, ⟨t2, r3, n3, e3, a3, rfl⟩, s4, ⟨w2, r4, n4, e4, a4, rfl⟩,
    s5, ⟨t3, r5, n5, e5, a5, rfl⟩, s6, ⟨w3, r6, n6, e6, a6, rfl⟩,
    s7, ⟨t4, r7, n7, e7, a7, rfl⟩, s8, ⟨w5, r8, n8, e8, a8, rfl⟩,
    s9, ⟨g5, r9, e9, a9, rfl⟩, s10, hstar, hend, rfl⟩
  rcases stars_fieldsGroup_sound _ _ _ _ hstar with ⟨c6, -, f2, -⟩
  simp only at f2
  rw [f2]
  simp [n1]

/-! ## The split of a line into tokens is unique -/

theorem span_eq (p : Char → Bool) (xs r : List Char) (hx : ∀ c ∈ xs, p c = true)
    (hr : ∀ c ∈ r.head?, p c = false) :
    (xs ++ r).takeWhile p = xs ∧ (xs ++ r).dropWhile p = r := by
  rw [List.takeWhile_append_of_pos hx, List.dropWhile_append_of_pos hx]
  cases r with
  | nil => simp
  | cons c cs =>
    have hc : p c = false := hr c (by simp)
    simp [List.takeWhile_cons, List.dropWhile_cons, hc]

theorem run_unique (p : Char → Bool) (xs xs' r r' : List Char)
    (hx : ∀ c ∈ xs, p c = true) (hx' : ∀ c ∈ xs', p c = true)
    (hr : ∀ c ∈ r.head?, p c = false) (hr' : ∀ c ∈ r'.head?, p c = false)
    (e : xs ++ r = xs' ++ r') : xs = xs' ∧ r = r' := by
  have a := span_eq p xs r hx hr
  have b := span_eq p xs' r' hx' hr'
  rw [e] at a
  exact ⟨a.1.symm.trans b.1, a.2.symm.trans b.2⟩

theorem head_of_wsRun (w r : List Char) (h : IsWsRun w) :
    ∀ c ∈ (w ++ r).head?, isNonWs c = false := by
  rcases h with ⟨hne, hall⟩
  cases w with
  | nil => exact absurd rfl hne
  | cons a w =>
    intro c hc
    simp only [List.cons_append, List.head?_cons, Option.mem_def, Option.some.injEq] at hc
    subst hc
    simp [isNonWs, hall a (List.mem_cons_self _ _)]

theorem head_of_tok (t r : List Char) (h : IsTok t) :
    ∀ c ∈ (t ++ r).head?, isWs c = false := by
  rcases h with ⟨hne, hall⟩
  cases t with
  | nil => exact absurd rfl hne
  | cons a t =>
    intro c hc
    simp only [List.cons_append, List.head?_cons, Option.mem_def, Option.some.injEq] at hc
    subst hc
    simpa [isNonWs] using hall a (List.mem_cons_self _ _)

/-- Two splits of one line into four tokens, the white space between them
and a rest that does not continue the fourth token agree on the tokens and
on the rest. -/
theorem split_unique (t1 w1 t2 w2 t3 w3 t4 rest t1' w1' t2' w2' t3' w3' t4' rest' : List Char)
    (h1 : IsTok t1) (k1 : IsWsRun w1) (h2 : IsTok t2) (k2 : IsWsRun w2) (h3 : IsTok t3)
    (k3 : IsWsRun w3) (h4 : IsTok t4) (hr : ∀ c ∈ rest.head?, isNonWs c = false)
    (h1' : IsTok t1') (k1' : IsWsRun w1') (h2' : IsTok t2') (k2' : IsWsRun w2')
    (h3' : IsTok t3') (k3' : IsWsRun w3') (h4' : IsTok t4')
    (hr' : ∀ c ∈ rest'.head?, isNonWs c = false)
    (e : t1 ++ (w1 ++ (t2 ++ (w2 ++ (t3 ++ (w3 ++ (t4 ++ rest)))))) =
      t1' ++ (w1' ++ (t2' ++ (w2' ++ (t3' ++ (w3' ++ (t4' ++ rest'))))))) :
    t1 = t1' ∧ t2 = t2' ∧ t3 = t3' ∧ t4 = t4' ∧ rest = rest' := by
  obtain ⟨a1, e⟩ := run_unique isNonWs _ _ _ _ h1.2 h1'.2 (head_of_wsRun _ _ k1)
    (head_of_wsRun _ _ k1') e
  obtain ⟨-, e⟩ := run_unique isWs _ _ _ _ k1.2 k1'.2 (head_of_tok _ _ h2)
    (head_of_tok _ _ h2') e
  obtain ⟨a2, e⟩ := run_unique isNonWs _ _ _ _ h2.2 h2'.2 (head_of_wsRun _ _ k2)
    (head_of_wsRun _ _ k2') e
  obtain ⟨-, e⟩ := run_unique isWs _ _ _ _ k2.2 k2'.2 (head_of_tok _ _ h3)
    (head_of_tok _ _ h3') e
  obtain ⟨a3, e⟩ := run_unique isNonWs _ _ _ _ h3.2 h3'.2 (head_of_wsRun _ _ k3)
    (head_of_wsRun _ _ k3') e
  obtain ⟨-, e⟩ := run_unique isWs _ _ _ _ k3.2 k3'.2 (head_of_tok _ _ h4)
    (head_of_tok _ _ h4') e
  obtain ⟨a4, e⟩ := run_unique isNonWs _ _ _ _ h4.2 h4'.2 hr hr' e
  exact ⟨a1, a2, a3, a4, e⟩

/-! ## ZapEventParser.Parse in terms of the first outcome of the pattern -/

theorem allMatches_zap_nil (line : List Char)
    (h : run zapEventRegex (St.init line) = []) :
    FindAllStringSubmatch zapEventRegex line 6 = [] := by
  have hs : search zapEventRegex [] line =
      ((run zapEventRegex (St.init line)).head?).map (fun t => ([], t)) := search_bol _ line
  rw [h] at hs
  show allMatches zapEventRegex ((line.length + 1) + 1) (5 + 1) [] line none = []
  rw [allMatches, hs]
  rfl

theorem allMatches_zap_cons (line : List Char) (t : St)
    (h : (run zapEventRegex (St.init line)).head? = some t) :
    ∃ more, FindAllStringSubmatch zapEventRegex line 6 =
      [t.left, (t.caps 1).getD [], (t.caps 2).getD [], (t.caps 3).getD [],
        (t.caps 4).getD [], (t.caps 5).getD [], (t.caps 6).getD []] :: more := by
  have hs : search zapEventRegex [] line =
      ((run zapEventRegex (St.init line)).head?).map (fun t => ([], t)) := search_bol _ line
  rw [h] at hs
  have hne : t.left ≠ [] := zap_left_ne line t (List.mem_of_mem_head? h)
  have hlen : (t.left.length == ([] : List Char).length) = false := by
    simpa using hne
  refine ⟨allMatches zapEventRegex (line.length + 1) 5 t.left t.right (some t.left.length), ?_⟩
  show allMatches zapEventRegex ((line.length + 1) + 1) (5 + 1) [] line none = _
  rw [allMatches, hs]
  simp only [Option.map_some', hlen, Bool.false_eq_true, if_false]
  rfl

theorem Parse_of_nil (line : String) (h : run zapEventRegex (St.init line.toList) = []) :
    ZapEventParser.Parse line = none := by
  rw [ZapEventParser.Parse, allMatches_zap_nil _ h]

theorem Parse_of_head (line : String) (t : St)
    (h : (run zapEventRegex (St.init line.toList)).head? = some t) :
    ZapEventParser.Parse line = (timeParse ((t.caps 1).getD [])).map (rowOf t) := by
  have hmem : t ∈ run zapEventRegex (St.init line.toList) := List.mem_of_mem_head? h
  obtain ⟨t1, w1, t2, w2, t3, w3, t4, w5, g5, c6, -, h1, -, h2, -, -, -, -, -, -, -, c1, c2,
    -, -, -, -⟩ := zap_sound _ _ hmem
  obtain ⟨more, hall⟩ := allMatches_zap_cons _ t h
  rw [ZapEventParser.Parse, hall]
  have n1 : ((t.caps 1).getD [] == []) = false := by
    rw [c1]; simpa using h1.1
  have n2 : ((t.caps 2).getD [] == []) = false := by
    rw [c2]; simpa using h2.1
  simp only [List.length_cons, List.length_nil, List.getD_cons_succ,
    List.getD_cons_zero, n1, n2]
  cases timeParse ((t.caps 1).getD []) with
  | none => rfl
  | some ts => rfl

theorem tokens_ws (w r : List Char) (h : ∀ c ∈ w, isWs c = true) :
    tokens (w ++ r) = tokens r := by
  induction w with
  | nil => rfl
  | cons a w ih =>
    have ha : isWs a = true := h a (List.mem_cons_self _ _)
    have : (a :: (w ++ r)).splitOnP isWs = [] :: (w ++ r).splitOnP isWs :=
      List.splitOnP_first isWs [] (by simp) a ha (w ++ r)
    rw [tokens, List.cons_append, this]
    simp only [List.filter_cons, List.isEmpty_nil, Bool.not_true, Bool.false_eq_true, if_false]
    exact ih (fun c hc => h c (List.mem_cons_of_mem _ hc))

theorem tokens_tok (t w r : List Char) (ht : IsTok t) (hw : IsWsRun w) :
    tokens (t ++ (w ++ r)) = t :: tokens r := by
  rcases hw with ⟨hne, hall⟩
  cases w with
  | nil => exact absurd rfl hne
  | cons a w =>
    have ha : isWs a = true := hall a (List.mem_cons_self _ _)
    have hx : ∀ x ∈ t, ¬isWs x = true := by
      intro x hx
      have := ht.2 x hx
      simpa [isNonWs] using this
    have : (t ++ a :: (w ++ r)).splitOnP isWs = t :: (w ++ r).splitOnP isWs :=
      List.splitOnP_first isWs t hx a ha (w ++ r)
    have hte : t.isEmpty = false := by
      cases t with
      | nil => exact absurd rfl ht.1
      | cons _ _ => rfl
    rw [tokens, List.cons_append, this]
    simp only [List.filter_cons, hte, Bool.not_false, if_true]
    congr 1
    exact tokens_ws w r (fun c hc => hall c (List.mem_cons_of_mem _ hc))

theorem isSpace_of_isWs (c : Char) (h : isWs c = true) : isSpace c = true := by
  simp only [isWs, Bool.or_eq_true, beq_iff_eq] at h
  rcases h with (((rfl | rfl) | rfl) | rfl) | rfl <;> decide

theorem TrimSpace_head (l : List Char) : ∀ c ∈ (TrimSpace l).head?, isSpace c = false := by
  intro c hc
  rw [TrimSpace] at hc
  have hp : (l.dropWhile isSpace).rdropWhile isSpace <+: l.dropWhile isSpace :=
    List.rdropWhile_prefix _ _
  rcases hp with ⟨sfx, hs⟩
  cases hd : (l.dropWhile isSpace).rdropWhile isSpace with
  | nil => rw [hd] at hc; simp at hc
  | cons a as =>
    rw [hd] at hc hs
    simp only [List.head?_cons, Option.mem_def, Option.some.injEq] at hc
    subst hc
    have h2 : (l.dropWhile isSpace).head? = some a := by rw [← hs]; rfl
    have := List.head?_dropWhile_not isSpace l
    rw [h2] at this
    simpa using this

theorem TrimSpace_last (l : List Char) :
    ∀ c ∈ (TrimSpace l).getLast?, isSpace c = false := by
  intro c hc
  rw [TrimSpace] at hc
  by_cases hne : (l.dropWhile isSpace).rdropWhile isSpace = []
  · rw [hne] at hc; simp at hc
  · have := List.rdropWhile_last_not isSpace (l.dropWhile isSpace) hne
    rw [List.getLast?_eq_getLast _ hne] at hc
    simp only [Option.mem_def, Option.some.injEq] at hc
    subst hc
    simpa using this

theorem TrimSpace_append_ws (w r : List Char) (h : ∀ c ∈ w, isWs c = true) :
    TrimSpace (w ++ r) = TrimSpace r := by
  rw [TrimSpace, TrimSpace,
    List.dropWhile_append_of_pos (fun c hc => isSpace_of_isWs c (h c hc))]

theorem TrimSpace_block (mid : List Char) :
    TrimSpace ('{' :: (mid ++ ['}'])) = '{' :: (mid ++ ['}']) := by
  have h1 : ('{' :: (mid ++ ['}'])).dropWhile isSpace = '{' :: (mid ++ ['}']) := by
    rw [List.dropWhile_cons]
    have : isSpace '{' = false := by decide
    simp [this]
  rw [TrimSpace, h1]
  have h2 : '{' :: (mid ++ ['}']) = ('{' :: mid) ++ ['}'] := by simp
  rw [h2]
  exact List.rdropWhile_concat_neg _ _ _ (by decide)

theorem not_newline_of_isDot (l : List Char) (h : ∀ c ∈ l, isDot c = true) : '\n' ∉ l := by
  intro hm
  have := h _ hm
  simp [isDot] at this

theorem isDot_of_not_newline (l : List Char) (h : '\n' ∉ l) : ∀ c ∈ l, isDot c = true := by
  intro c hc
  have : c ≠ '\n' := fun e => h (e ▸ hc)
  simp [isDot, this]

theorem extractLoop_of_first (line : String) (pre : List Parser) (p : Parser)
    (post : List Parser) (row : Row) (hpre : ∀ q ∈ pre, q.Parse line = none)
    (hp : p.Parse line = some row) :
    extractLoop line (pre ++ p :: post) = (some row, none) := by
  induction pre with
  | nil => simp [extractLoop, hp]
  | cons q pre ih =>
    have hq : q.Parse line = none := hpre q (List.mem_cons_self _ _)
    simp only [List.cons_append, extractLoop, hq]
    exact ih (fun r hr => hpre r (List.mem_cons_of_mem _ hr))

theorem extractLoop_none_iff (line : String) (ps : List Parser) :
    extractLoop line ps = (none, some "no parser match") ↔ ∀ p ∈ ps, p.Parse line = none := by
  induction ps with
  | nil => simp [extractLoop]
  | cons q ps ih =>
    cases hq : q.Parse line with
    | none => simp [extractLoop, hq, ih]
    | some row => simp [extractLoop, hq]

theorem registerParser_foldl (calls : List (List Parser)) :
    ∀ ex : Extractor, (calls.foldl Extractor.RegisterParser ex).parsers =
      ex.parsers ++ calls.flatten := by
  induction calls with
  | nil => intro ex; simp
  | cons c cs ih =>
    intro ex
    rw [List.foldl_cons, ih]
    simp [Extractor.RegisterParser]

theorem Extract_of_Parse_none (line : String) (h : ZapEventParser.Parse line = none) :
    Extract line = (some (.raw { message := line }), none) := by
  have : extractLoop line [ZapEventParser, RawParser] =
      (some (.raw { message := line }), none) :=
    extractLoop_of_first line [ZapEventParser] RawParser [] _
      (by intro q hq; rw [List.mem_singleton.mp hq]; exact h) rfl
  exact this

theorem Extract_of_Parse_some (line : String) (row : Row)
    (h : ZapEventParser.Parse line = some row) : Extract line = (some row, none) :=
  extractLoop_of_first line [] ZapEventParser [RawParser] row (by simp) h

/-- C1.  The default extractor holds `ZapEventParser` followed by
`RawParser`, `RawParser` returns a row for every line, and so `Extract`
returns a non-nil row and a nil error (never "no parser match") for every
line. -/
theorem Extract_total :
    defaultExtractor.parsers = [ZapEventParser, RawParser] ∧
    (∀ line : String, RawParser.Parse line ≠ none) ∧
    (∀ line : String, (Extract line).1 ≠ none ∧ (Extract line).2 = none) := by
  refine ⟨rfl, fun line => by simp [RawParser.Parse], fun line => ?_⟩
  cases h : ZapEventParser.Parse line with
  | none => rw [Extract_of_Parse_none line h]; simp
  | some row => rw [Extract_of_Parse_some line row h]; simp

theorem Parse_none_of_no_inner_ws (line : String) (body trail : List Char)
    (e : line.toList = body ++ trail) (hb : ∀ c ∈ body, isNonWs c = true)
    (ht : ∀ c ∈ trail, isWs c = true) : ZapEventParser.Parse line = none := by
  apply Parse_of_nil
  rw [List.eq_nil_iff_forall_not_mem]
  intro t hmem
  obtain ⟨t1, w1, t2, w2, t3, w3, t4, w5, g5, c6, hl, h1, k1, h2, -⟩ := zap_sound _ _ hmem
  rw [e] at hl
  have htr : ∀ c ∈ trail.head?, isNonWs c = false := by
    intro c hc
    have := ht c (List.mem_of_mem_head? hc)
    simp [isNonWs, this]
  obtain ⟨-, e2⟩ := run_unique isNonWs _ _ _ _ hb h1.2 htr (head_of_wsRun _ _ k1) hl
  obtain ⟨a, t2', rfl⟩ := List.exists_cons_of_ne_nil h2.1
  have hmem2 : a ∈ trail := by rw [e2]; simp
  have := h2.2 a (List.mem_cons_self _ _)
  simp [isNonWs, ht a hmem2] at this

/-- C3.  For a line `ZapEventParser.Parse` rejects, `Extract` returns the
`Raw` row whose `Output()` is the line itself, unchanged; and a line with no
white space before its end (a run of non-whitespace, then only white space)
is such a line. -/
theorem Extract_raw_of_rejected :
    (∀ line : String, ZapEventParser.Parse line = none →
      ∃ r : Raw, Extract line = (some (.raw r), none) ∧ r.Output = line) ∧
    (∀ (line : String) (body trail : List Char), line.toList = body ++ trail →
      (∀ c ∈ body, isNonWs c = true) → (∀ c ∈ trail, isWs c = true) →
      ZapEventParser.Parse line = none ∧
      ∃ r : Raw, Extract line = (some (.raw r), none) ∧ r.Output = line) := by
  have key : ∀ line : String, ZapEventParser.Parse line = none →
      ∃ r : Raw, Extract line = (some (.raw r), none) ∧ r.Output = line :=
    fun line h => ⟨{ message := line }, Extract_of_Parse_none line h, rfl⟩
  refine ⟨key, fun line body trail e hb ht => ?_⟩
  have h := Parse_none_of_no_inner_ws line body trail e hb ht
  exact ⟨h, key line h⟩

set_option maxRecDepth 100000 in
theorem Extract_raw_of_rejected_witness :
    (∃ r : Raw, Extract jsonLine = (some (.raw r), none) ∧ r.Output = jsonLine) ∧
    (ZapEventParser.Parse jsonLine = none ∧
      ∃ r : Raw, Extract jsonLine = (some (.raw r), none) ∧ r.Output = jsonLine) :=
  ⟨Extract_raw_of_rejected.1 jsonLine (by decide),
    Extract_raw_of_rejected.2 jsonLine jsonText.toList ['\n'] (by decide) (by decide)
      (by decide)⟩

/-- C8.  The parser list of an extractor is the concatenation, in call
order, of the arguments of its `RegisterParser` calls; `Extract` returns the
row of the first parser that returns one, with a nil error, whatever the
parsers after it are; and it returns a nil row with the error
"no parser match" exactly when every registered parser returns nil, as for
an extractor without parsers or with `JsonParser` alone. -/
theorem Extractor_Extract_first_match :
    (∀ (ex : Extractor) (calls : List (List Parser)),
      (calls.foldl Extractor.RegisterParser ex).parsers = ex.parsers ++ calls.flatten) ∧
    (∀ (ex : Extractor) (line : String) (pre : List Parser) (p : Parser) (post : List Parser)
      (row : Row), ex.parsers = pre ++ p :: post → (∀ q ∈ pre, q.Parse line = none) →
      p.Parse line = some row → ex.Extract line = (some row, none)) ∧
    (∀ (ex : Extractor) (line : String),
      ex.Extract line = (none, some "no parser match") ↔
        ∀ p ∈ ex.parsers, p.Parse line = none) ∧
    (∀ (ex : Extractor) (line : String),
      (ex.Extract line).1 = none ↔ (ex.Extract line).2 = some "no parser match") ∧
    (∀ line : String, (Extractor.mk []).Extract line = (none, some "no parser match")) ∧
    (∀ line : String, JsonParser.Parse line = none ∧
      ((Extractor.mk []).RegisterParser [JsonParser]).Extract line =
        (none, some "no parser match")) := by
  refine ⟨fun ex calls => registerParser_foldl calls ex, ?_, ?_, ?_, ?_, ?_⟩
  · intro ex line pre p post row e hpre hp
    rw [Extractor.Extract, e]
    exact extractLoop_of_first line pre p post row hpre hp
  · intro ex line
    exact extractLoop_none_iff line ex.parsers
  · intro ex line
    rw [Extractor.Extract]
    induction ex.parsers with
    | nil => simp [extractLoop]
    | cons q ps ih =>
      cases hq : q.Parse line with
      | none => simpa [extractLoop, hq] using ih
      | some row => simp [extractLoop, hq]
  · intro line
    rfl
  · intro line
    exact ⟨rfl, rfl⟩

theorem Extractor_Extract_first_match_witness :
    (Extractor.mk [JsonParser, RawParser, ZapEventParser]).Extract "a b" =
      (some (.raw { message := "a b" }), none) :=
  Extractor_Extract_first_match.2.1 (Extractor.mk [JsonParser, RawParser, ZapEventParser]) "a b"
    [JsonParser] RawParser [ZapEventParser] (.raw { message := "a b" }) rfl
    (by intro q hq; rw [List.mem_singleton.mp hq]; rfl) rfl

/-- What `Parse` does on a line that splits into four tokens, white space
and a rest without a newline: it succeeds exactly when the first token
parses as a time, and the outcome of the pattern holds the four tokens. -/
theorem Parse_of_split (line : String) (t1 w1 t2 w2 t3 w3 t4 w5 tail : List Char)
    (e : line.toList = t1 ++ (w1 ++ (t2 ++ (w2 ++ (t3 ++ (w3 ++ (t4 ++ (w5 ++ tail))))))))
    (h1 : IsTok t1) (k1 : IsWsRun w1) (h2 : IsTok t2) (k2 : IsWsRun w2) (h3 : IsTok t3)
    (k3 : IsWsRun w3) (h4 : IsTok t4) (k5 : IsWsRun w5) (htail : '\n' ∉ tail) :
    ∃ (t : St) (w5' g5 c6 : List Char),
      ZapEventParser.Parse line = (timeParse t1).map (rowOf t) ∧
      t.caps 2 = some t2 ∧ t.caps 3 = some t3 ∧ t.caps 4 = some t4 ∧ t.caps 5 = some g5 ∧
      w5 ++ tail = w5' ++ (g5 ++ c6) ∧ IsWsRun w5' ∧
      ((c6 = [] ∧ t.caps 6 = none) ∨
        ∃ pre mid, c6 = pre ++ '{' :: (mid ++ ['}']) ∧
          t.caps 6 = some ('{' :: (mid ++ ['}']))) := by
  have hne := zap_complete t1 w1 t2 w2 t3 w3 t4 w5 tail h1 k1 h2 k2 h3 k3 h4 k5
    (isDot_of_not_newline tail htail)
  rw [← e] at hne
  obtain ⟨t, ts, hrun⟩ := List.exists_cons_of_ne_nil hne
  have hhead : (run zapEventRegex (St.init line.toList)).head? = some t := by rw [hrun]; rfl
  have hmem : t ∈ run zapEventRegex (St.init line.toList) := List.mem_of_mem_head? hhead
  obtain ⟨t1', w1', t2', w2', t3', w3', t4', w5', g5, c6, hl, h1', k1', h2', k2', h3', k3', h4',
    k5', -, -, c1, c2, c3, c4, c5, hsix⟩ := zap_sound _ _ hmem
  rw [e] at hl
  obtain ⟨rfl, rfl, rfl, rfl, erest⟩ := split_unique t1 w1 t2 w2 t3 w3 t4 (w5 ++ tail)
    t1' w1' t2' w2' t3' w3' t4' (w5' ++ (g5 ++ c6)) h1 k1 h2 k2 h3 k3 h4
    (head_of_wsRun _ _ k5) h1' k1' h2' k2' h3' k3' h4' (head_of_wsRun _ _ k5') hl
  refine ⟨t, w5', g5, c6, ?_, c2, c3, c4, c5, erest, k5', hsix⟩
  rw [Parse_of_head line t hhead, c1]
  rfl

/-- C9.  `ZapEventParser.Parse` returns a row exactly for the lines that
start with four tokens separated by white space, followed by white space and
a tail without a newline, and whose first token `time.Parse` accepts in the
layout `2006-01-02T15:04:05.999Z0700`; it returns nil in every other
case. -/
theorem Parse_ne_none_iff (line : String) :
    ZapEventParser.Parse line ≠ none ↔
      ∃ t1 w1 t2 w2 t3 w3 t4 w5 tail : List Char,
        line.toList = t1 ++ w1 ++ t2 ++ w2 ++ t3 ++ w3 ++ t4 ++ w5 ++ tail ∧
        IsTok t1 ∧ IsWsRun w1 ∧ IsTok t2 ∧ IsWsRun w2 ∧ IsTok t3 ∧ IsWsRun w3 ∧ IsTok t4 ∧
        IsWsRun w5 ∧ '\n' ∉ tail ∧ timeParse t1 ≠ none := by
  constructor
  · intro h
    cases hrun : run zapEventRegex (St.init line.toList) with
    | nil => exact absurd (Parse_of_nil line hrun) h
    | cons t ts =>
      have hhead : (run zapEventRegex (St.init line.toList)).head? = some t := by
        rw [hrun]; rfl
      have hmem : t ∈ run zapEventRegex (St.init line.toList) := List.mem_of_mem_head? hhead
      obtain ⟨t1, w1, t2, w2, t3, w3, t4, w5, g5, c6, hl, h1, k1, h2, k2, h3, k3, h4, k5,
        d5, d6, c1, -⟩ := zap_sound _ _ hmem
      refine ⟨t1, w1, t2, w2, t3, w3, t4, w5, g5 ++ c6, by simpa [List.append_assoc] using hl,
        h1, k1, h2, k2, h3, k3, h4, k5, ?_, ?_⟩
      · apply not_newline_of_isDot
        intro c hc
        rcases List.mem_append.mp hc with hc | hc
        · exact d5 c hc
        · exact d6 c hc
      · intro hnone
        apply h
        rw [Parse_of_head line t hhead, c1]
        simp [hnone]
  · rintro ⟨t1, w1, t2, w2, t3, w3, t4, w5, tail, e, h1, k1, h2, k2, h3, k3, h4, k5, htail, htm⟩
    simp only [List.append_assoc] at e
    obtain ⟨t, -, -, -, hp, -⟩ :=
      Parse_of_split line t1 w1 t2 w2 t3 w3 t4 w5 tail e h1 k1 h2 k2 h3 k3 h4 k5 htail
    rw [hp]
    cases htp : timeParse t1 with
    | none => exact absurd htp htm
    | some ts => simp

/-- C10.  Whenever `ZapEventParser.Parse` returns a row, it is a
`ZapEventRow`; its `Level`, `Module` and `Location` are the second, third
and fourth whitespace-delimited tokens of the line; `Message` and `Fields`
neither start nor end with white space; `Fields` is empty or starts with
`{` and ends with `}`, and is non-empty only if the line ends with `}`; and
when the text after the fourth token contains no `{`, `Fields` is empty and
`Message` is that text trimmed. -/
theorem Parse_row_fields (line : String) (r : Row) (h : ZapEventParser.Parse line = some r) :
    ∃ row : ZapEventRow, r = .zap row ∧
      (tokens line.toList)[1]? = some row.Level.toList ∧
      (tokens line.toList)[2]? = some row.Module.toList ∧
      (tokens line.toList)[3]? = some row.Location.toList ∧
      (∀ c ∈ row.Message.toList.head?, isSpace c = false ∧ isWs c = false) ∧
      (∀ c ∈ row.Message.toList.getLast?, isSpace c = false ∧ isWs c = false) ∧
      (∀ c ∈ row.Fields.toList.head?, isSpace c = false ∧ isWs c = false) ∧
      (∀ c ∈ row.Fields.toList.getLast?, isSpace c = false ∧ isWs c = false) ∧
      (row.Fields = "" ∨ ∃ mid, row.Fields.toList = '{' :: (mid ++ ['}'])) ∧
      (row.Fields ≠ "" → line.toList.getLast? = some '}') ∧
      (∀ t1 w1 t2 w2 t3 w3 t4 rest : List Char,
        line.toList = t1 ++ w1 ++ t2 ++ w2 ++ t3 ++ w3 ++ t4 ++ rest →
        IsTok t1 → IsWsRun w1 → IsTok t2 → IsWsRun w2 → IsTok t3 → IsWsRun w3 → IsTok t4 →
        (∀ c ∈ rest.head?, isNonWs c = false) → '{' ∉ rest →
        row.Fields = "" ∧ row.Message.toList = TrimSpace rest) := by
  have hns : ∀ c, isSpace c = false → isSpace c = false ∧ isWs c = false := by
    intro c hc
    refine ⟨hc, ?_⟩
    cases hw : isWs c with
    | false => rfl
    | true => rw [isSpace_of_isWs c hw] at hc; exact absurd hc (by simp)
  cases hrun : run zapEventRegex (St.init line.toList) with
  | nil => rw [Parse_of_nil line hrun] at h; exact absurd h (by simp)
  | cons t ts =>
    have hhead : (run zapEventRegex (St.init line.toList)).head? = some t := by
      rw [hrun]; rfl
    have hmem : t ∈ run zapEventRegex (St.init line.toList) := List.mem_of_mem_head? hhead
    obtain ⟨t1, w1, t2, w2, t3, w3, t4, w5, g5, c6, hl, h1, k1, h2, k2, h3, k3, h4, k5,
      d5, d6, c1, c2, c3, c4, c5, hsix⟩ := zap_sound _ _ hmem
    rw [Parse_of_head line t hhead] at h
    cases htp : timeParse ((t.caps 1).getD []) with
    | none => rw [htp] at h; exact absurd h (by simp)
    | some tm =>
      rw [htp] at h
      simp only [Option.map_some', Option.some.injEq] at h
      subst h
      have htok : tokens line.toList = t1 :: t2 :: t3 :: t4 :: tokens (g5 ++ c6) := by
        rw [hl, tokens_tok _ _ _ h1 k1, tokens_tok _ _ _ h2 k2, tokens_tok _ _ _ h3 k3,
          tokens_tok _ _ _ h4 k5]
      have hfields : TrimSpace ((t.caps 6).getD []) = [] ∨
          ∃ mid, TrimSpace ((t.caps 6).getD []) = '{' :: (mid ++ ['}']) ∧
            ∃ pre, c6 = pre ++ '{' :: (mid ++ ['}']) := by
        rcases hsix with ⟨-, h6⟩ | ⟨pre, mid, hc6, h6⟩
        · left; rw [h6]; rfl
        · right
          refine ⟨mid, ?_, pre, hc6⟩
          rw [h6]
          exact TrimSpace_block mid
      refine ⟨_, rfl, ?_, ?_, ?_, ?_, ?_, ?_, ?_, ?_, ?_, ?_⟩
      · rw [htok, c2]; simp
      · rw [htok, c3]; simp
      · rw [htok, c4]; simp
      · exact fun c hc => hns c (TrimSpace_head _ c hc)
      · exact fun c hc => hns c (TrimSpace_last _ c hc)
      · exact fun c hc => hns c (TrimSpace_head _ c hc)
      · exact fun c hc => hns c (TrimSpace_last _ c hc)
      · rcases hfields with hf | ⟨mid, hf, -⟩
        · left
          show String.mk (TrimSpace ((t.caps 6).getD [])) = ""
          rw [hf]
        · exact Or.inr ⟨mid, hf⟩
      · intro hne
        rcases hfields with hf | ⟨mid, -, pre, hc6⟩
        · exfalso
          apply hne
          show String.mk (TrimSpace ((t.caps 6).getD [])) = ""
          rw [hf]
        · rw [hl, hc6]
          have : t1 ++ (w1 ++ (t2 ++ (w2 ++ (t3 ++ (w3 ++ (t4 ++ (w5 ++ (g5 ++
              (pre ++ '{' :: (mid ++ ['}'])))))))))) =
              (t1 ++ (w1 ++ (t2 ++ (w2 ++ (t3 ++ (w3 ++ (t4 ++ (w5 ++ (g5 ++
              (pre ++ '{' :: mid)))))))))) ++ ['}'] := by simp
          rw [this, List.getLast?_append]
          rfl
      · intro u1 v1 u2 v2 u3 v3 u4 rest e q1 p1 q2 p2 q3 p3 q4 hrest hbrace
        simp only [List.append_assoc] at e
        rw [hl] at e
        obtain ⟨-, -, -, -, erest⟩ := split_unique t1 w1 t2 w2 t3 w3 t4 (w5 ++ (g5 ++ c6))
          u1 v1 u2 v2 u3 v3 u4 rest h1 k1 h2 k2 h3 k3 h4 (head_of_wsRun _ _ k5)
          q1 p1 q2 p2 q3 p3 q4 hrest e
        subst erest
        rcases hsix with ⟨rfl, h6⟩ | ⟨pre, mid, hc6, -⟩
        · refine ⟨?_, ?_⟩
          · show String.mk (TrimSpace ((t.caps 6).getD [])) = ""
            rw [h6]; rfl
          · show TrimSpace ((t.caps 5).getD []) = _
            rw [c5, TrimSpace_append_ws _ _ k5.2]
            simp
        · exfalso
          apply hbrace
          rw [hc6]
          simp

theorem Parse_row_fields_witness :
    ZapEventParser.Parse "2010-05-23T15:14:00.000Z INFO main x.go:1 scooby doo \x7b\"a\": 1\x7d" =
      some (.zap {
        Ts := ⟨2010, 5, 23, 15, 14, 0, 0, 0⟩
        Level := "INFO"
        Module := "main"
        Location := "x.go:1"
        Message := "scooby doo"
        Fields := "\x7b\"a\": 1\x7d" }) ∧
    ∃ row : ZapEventRow,
      (tokens "2010-05-23T15:14:00.000Z INFO main x.go:1 scooby doo \x7b\"a\": 1\x7d".toList)[1]? =
        some row.Level.toList ∧
      (row.Fields = "" ∨ ∃ mid, row.Fields.toList = '{' :: (mid ++ ['}'])) :=
  ⟨by decide,
    let ⟨row, _, h1, _, _, _, _, _, _, h9, _⟩ := Parse_row_fields
      "2010-05-23T15:14:00.000Z INFO main x.go:1 scooby doo \x7b\"a\": 1\x7d" _
      (show ZapEventParser.Parse
          "2010-05-23T15:14:00.000Z INFO main x.go:1 scooby doo \x7b\"a\": 1\x7d" =
        some (.zap {
          Ts := ⟨2010, 5, 23, 15, 14, 0, 0, 0⟩
          Level := "INFO"
          Module := "main"
          Location := "x.go:1"
          Message := "scooby doo"
          Fields := "\x7b\"a\": 1\x7d" }) by decide)
    ⟨row, h1, h9⟩⟩

/-- Lines `ZapEventParser.Parse` rejects and a line it accepts: leading white
space, three tokens, four tokens and no more, a newline after the message
and a timestamp of another layout give nil; white space with a newline in it
before the message does not. -/
theorem Parse_examples :
    ZapEventParser.Parse " 2010-05-23T15:14:00.000Z INFO main x.go:1 msg" = none ∧
    ZapEventParser.Parse "2010-05-23T15:14:00.000Z INFO main" = none ∧
    ZapEventParser.Parse "2010-05-23T15:14:00.000Z INFO main x.go:1" = none ∧
    ZapEventParser.Parse "2010-05-23T15:14:00.000Z INFO main x.go:1 msg\n" = none ∧
    ZapEventParser.Parse "2010-05-23 INFO main x.go:1 msg" = none ∧
    ZapEventParser.Parse "2010-05-23T15:14:00.000Z INFO main x.go:1 \n msg" =
      some (.zap {
        Ts := ⟨2010, 5, 23, 15, 14, 0, 0, 0⟩
        Level := "INFO"
        Module := "main"
        Location := "x.go:1"
        Message := "msg"
        Fields := "" }) := by
  refine ⟨?_, ?_, ?_, ?_, ?_, ?_⟩ <;> decide

theorem isWsRun_tab : IsWsRun ['\t'] := ⟨by simp, by decide⟩

/-- C2, the claim as the code has it.  For a line made of a timestamp that
`time.Parse` accepts, the level, the logger name, a caller location and the
message, separated by tabs, with no newline in or after the message and a
message that has no `{` or does not end with `}`, `Extract` returns the
`ZapEventRow` whose `Level`, `Module` and `Location` are the rendered level,
logger name and caller and whose `Message` is the message with the
surrounding white space trimmed. -/
theorem Extract_plaintext (ts level name caller msg : List Char) (tm : Time)
    (hts : IsTok ts) (htm : timeParse ts = some tm) (hl : IsTok level) (hn : IsTok name)
    (hc : IsTok caller) (hnl : '\n' ∉ msg) (hb : '{' ∉ msg ∨ msg.getLast? ≠ some '}') :
    Extract (String.mk (ts ++ '\t' :: (level ++ '\t' :: (name ++ '\t' :: (caller ++
        '\t' :: msg))))) =
      (some (.zap {
        Ts := tm
        Level := String.mk level
        Module := String.mk name
        Location := String.mk caller
        Message := String.mk (TrimSpace msg)
        Fields := "" }), none) := by
  apply Extract_of_Parse_some
  obtain ⟨t, w5', g5, c6, hp, c2, c3, c4, c5, erest, k5', hsix⟩ :=
    Parse_of_split (String.mk (ts ++ '\t' :: (level ++ '\t' :: (name ++ '\t' :: (caller ++
        '\t' :: msg))))) ts ['\t'] level ['\t'] name ['\t'] caller ['\t'] msg rfl
      hts isWsRun_tab hl isWsRun_tab hn isWsRun_tab hc isWsRun_tab hnl
  rw [hp, htm]
  obtain ⟨a, w5t, rfl⟩ := List.exists_cons_of_ne_nil k5'.1
  simp only [List.cons_append, List.nil_append, List.cons.injEq] at erest
  obtain ⟨-, emsg⟩ := erest
  have hc6 : c6 = [] ∧ t.caps 6 = none := by
    rcases hsix with h | ⟨pre, mid, e6, -⟩
    · exact h
    · exfalso
      subst e6
      rcases hb with hb | hb
      · apply hb
        rw [emsg]
        simp
      · apply hb
        have : msg = (w5t ++ (g5 ++ (pre ++ '{' :: mid))) ++ ['}'] := by rw [emsg]; simp
        rw [this, List.getLast?_append]
        rfl
  obtain ⟨rfl, c6'⟩ := hc6
  have hmsg : TrimSpace msg = TrimSpace g5 := by
    rw [emsg, List.append_nil]
    exact TrimSpace_append_ws _ _ (fun c hc => k5'.2 c (List.mem_cons_of_mem _ hc))
  simp only [Option.map_some', rowOf, c2, c3, c4, c5, c6', hmsg, Option.getD_some,
    Option.getD_none]
  rfl

theorem Extract_plaintext_witness :
    Extract "2010-05-23T15:14:00.000Z\tINFO\tmain\textract/extract_test.go:43\tscooby" =
      (some (.zap {
        Ts := ⟨2010, 5, 23, 15, 14, 0, 0, 0⟩
        Level := "INFO"
        Module := "main"
        Location := "extract/extract_test.go:43"
        Message := "scooby"
        Fields := "" }), none) :=
  Extract_plaintext "2010-05-23T15:14:00.000Z".toList "INFO".toList "main".toList
    "extract/extract_test.go:43".toList "scooby".toList ⟨2010, 5, 23, 15, 14, 0, 0, 0⟩
    ⟨by decide, by decide⟩ (by decide) ⟨by decide, by decide⟩ ⟨by decide, by decide⟩
    ⟨by decide, by decide⟩ (by decide) (Or.inl (by decide))

/-- C2 as stated fails on the plaintext line of the test,
`"2010-05-23T15:14:00.000Z\tINFO\tmain\tscooby\n"`: with no caller rendered
the message is taken for the location and `Message` is empty; and with a
caller rendered the final newline makes `ZapEventParser` reject the line, so
that `Extract` returns a `Raw` row. -/
theorem Extract_plaintext_counterexample :
    Extract "2010-05-23T15:14:00.000Z\tINFO\tmain\tscooby\n" =
      (some (.zap {
        Ts := ⟨2010, 5, 23, 15, 14, 0, 0, 0⟩
        Level := "INFO"
        Module := "main"
        Location := "scooby"
        Message := ""
        Fields := "" }), none) ∧
    (¬ ∃ row : ZapEventRow,
      Extract "2010-05-23T15:14:00.000Z\tINFO\tmain\tscooby\n" = (some (.zap row), none) ∧
        row.Level = "INFO" ∧ row.Module = "main" ∧ row.Message = "scooby") ∧
    Extract "2010-05-23T15:14:00.000Z\tINFO\tmain\textract/extract_test.go:43\tscooby\n" =
      (some (.raw { message :=
        "2010-05-23T15:14:00.000Z\tINFO\tmain\textract/extract_test.go:43\tscooby\n" }),
        none) := by
  have h1 : Extract "2010-05-23T15:14:00.000Z\tINFO\tmain\tscooby\n" =
      (some (.zap {
        Ts := ⟨2010, 5, 23, 15, 14, 0, 0, 0⟩
        Level := "INFO"
        Module := "main"
        Location := "scooby"
        Message := ""
        Fields := "" }), none) := by decide
  refine ⟨h1, ?_, by decide⟩
  rintro ⟨row, h, -, -, hm⟩
  rw [h1] at h
  simp only [Prod.mk.injEq, Option.some.injEq, Row.zap.injEq, and_true] at h
  subst h
  exact absurd hm (by decide)

end extract

/-! # Theorems of Part II -/

namespace log

end log
